import Mathlib

/-!
Verification of the hearth event-sourced task orchestration engine.

The definitions below are a shallow embedding of the Go sources of the
fmizzell/hearth repository: `Task`, `HearthState`, the event union, the
reducers of reducers.go, the completion validator, the depth-first
scheduler of hearth.go, the orchestration listener onTaskExecuted of
orchestration.go, the event merge of persistence.go, and the load/read
paths of the file repository.  Go `time.Time` values are embedded as
`Nat` (nanoseconds since the epoch), Go `*string` as `Option String`,
and the Go map `map[string]*Task` as an association list over which the
same linear scans are performed as in the source.  Go map iteration
order is unspecified; the embedding scans the list in order, which is
one deterministic refinement of the source behaviour.
-/

namespace Hearth

/-- Task mirrors the Go struct `Task` of hearth.go: ID, Title, Description,
optional ParentID and DependsOn, a string Status, CreatedAt and optional
CompletedAt timestamps. -/
structure Task where
  ID : String
  Title : String
  Description : String
  ParentID : Option String
  DependsOn : Option String
  Status : String
  CreatedAt : Nat
  CompletedAt : Option Nat
deriving DecidableEq, Repr

/-- The domain event union of events.go; each constructor carries the fields
of the corresponding Go event struct, with `time.Time` embedded as `Nat`. -/
inductive Event where
  | taskCreated (taskID title description : String)
      (parentID dependsOn : Option String) (time : Nat)
  | taskStarted (taskID : String) (time : Nat)
  | taskCompleted (taskID : String) (time : Nat)
  | executeTasksRequested (time : Nat)
  | nextTaskSelected (taskID reason : String) (time : Nat)
  | taskExecuted (taskID resultPath : String) (time : Nat)
  | summaryRequested (parentTaskID : String) (time : Nat)
  | summaryGenerated (parentTaskID summaryPath : String) (time : Nat)
deriving DecidableEq, Repr

/-- The `Type()` method of each event struct in events.go. -/
def Event.kind : Event → String
  | .taskCreated .. => "task_created"
  | .taskStarted .. => "task_started"
  | .taskCompleted .. => "task_completed"
  | .executeTasksRequested .. => "execute_tasks_requested"
  | .nextTaskSelected .. => "next_task_selected"
  | .taskExecuted .. => "task_executed"
  | .summaryRequested .. => "summary_requested"
  | .summaryGenerated .. => "summary_generated"

/-- The `Timestamp()` method of each event struct in events.go. -/
def Event.time : Event → Nat
  | .taskCreated _ _ _ _ _ t => t
  | .taskStarted _ t => t
  | .taskCompleted _ t => t
  | .executeTasksRequested t => t
  | .nextTaskSelected _ _ t => t
  | .taskExecuted _ _ t => t
  | .summaryRequested _ t => t
  | .summaryGenerated _ _ t => t

/-- The Go map `map[string]*Task`, embedded as an association list with the
map operations used by the sources. -/
abbrev TaskMap := List (String × Task)

/-- Go map read `s.Tasks[id]`: the value bound to `id`, if any. -/
def mapLookup (m : TaskMap) (id : String) : Option Task :=
  (List.find? (fun kv => kv.1 = id) m).map (fun kv => kv.2)

/-- Go map write `s.Tasks[id] = t`: replace the binding of `id` or add it. -/
def mapSet (m : TaskMap) (id : String) (t : Task) : TaskMap :=
  if List.any m (fun kv => kv.1 = id) then
    List.map (fun kv => if kv.1 = id then (id, t) else kv) m
  else
    m ++ [(id, t)]

/-- In-place mutation of the task bound to `id` through its pointer, as the
Go reducers do with `task.Status = ...`; a no-op when `id` is unbound. -/
def mapUpdate (m : TaskMap) (id : String) (f : Task → Task) : TaskMap :=
  List.map (fun kv => if kv.1 = id then (kv.1, f kv.2) else kv) m

/-- Go map value iteration `for _, task := range s.Tasks`. -/
def mapValues (m : TaskMap) : List Task :=
  List.map (fun kv => kv.2) m

/-- HearthState of state.go: the single projected state, a map of tasks. -/
structure HearthState where
  Tasks : TaskMap
deriving DecidableEq, Repr

/-- The empty registered state of NewHearth. -/
def emptyState : HearthState := { Tasks := [] }

/-! ## Reducers (reducers.go) -/

/-- reduceTaskCreated of reducers.go: unconditionally binds `e.TaskID` to a
fresh Task with Status todo, CreatedAt the event time, the remaining fields
copied from the event and CompletedAt left nil. -/
def reduceTaskCreated (s : HearthState) (taskID title description : String)
    (parentID dependsOn : Option String) (time : Nat) : HearthState :=
  { Tasks := mapSet s.Tasks taskID
      { ID := taskID, Title := title, Description := description,
        ParentID := parentID, DependsOn := dependsOn, Status := "todo",
        CreatedAt := time, CompletedAt := none } }

/-- reduceTaskStarted of reducers.go: if the task exists, set its Status to
in-progress (the source checks existence only, not the current Status). -/
def reduceTaskStarted (s : HearthState) (taskID : String) : HearthState :=
  { Tasks := mapUpdate s.Tasks taskID (fun t => { t with Status := "in-progress" }) }

/-- autoCompleteParent of reducers.go, with explicit fuel for the recursion
up the parent chain.  The Go function completes at most one previously
incomplete task per recursive call, so any fuel of at least the number of
tasks reproduces the source behaviour exactly. -/
def autoCompleteParentF : Nat → HearthState → String → Nat → HearthState
  | 0, s, _, _ => s
  | fuel + 1, s, parentID, completedTime =>
    let allChildrenDone :=
      ! List.any (mapValues s.Tasks)
          (fun t => t.ParentID = some parentID && t.Status ≠ "completed")
    if allChildrenDone then
      match mapLookup s.Tasks parentID with
      | some parent =>
        if parent.Status ≠ "completed" then
          let s1 : HearthState :=
            { Tasks := mapUpdate s.Tasks parentID (fun t =>
                { t with Status := "completed", CompletedAt := some completedTime }) }
          match parent.ParentID with
          | some gp => autoCompleteParentF fuel s1 gp completedTime
          | none => s1
        else s
      | none => s
    else s

/-- autoCompleteParent with the fuel that makes it equal to the source. -/
def autoCompleteParent (s : HearthState) (parentID : String)
    (completedTime : Nat) : HearthState :=
  autoCompleteParentF (s.Tasks.length + 1) s parentID completedTime

/-- reduceTaskCompleted of reducers.go: if the task exists, set its Status to
completed and CompletedAt to the event time (unconditionally, even when the
task was already completed), then cascade to the parent if there is one. -/
def reduceTaskCompleted (s : HearthState) (taskID : String) (time : Nat) :
    HearthState :=
  match mapLookup s.Tasks taskID with
  | none => s
  | some task =>
    let s1 : HearthState :=
      { Tasks := mapUpdate s.Tasks taskID
          (fun t => { t with Status := "completed", CompletedAt := some time }) }
    match task.ParentID with
    | some pid => autoCompleteParent s1 pid time
    | none => s1

/-- reduceNextTaskSelected of orchestration.go: when the selected TaskID is
non-empty and the task exists, mark it in-progress. -/
def reduceNextTaskSelected (s : HearthState) (taskID : String) : HearthState :=
  if taskID ≠ "" then
    { Tasks := mapUpdate s.Tasks taskID (fun t => { t with Status := "in-progress" }) }
  else s

/-- TaskCompletionValidator.ValidateTyped of reducers.go: scan all tasks for
a child of the completing task that is not completed; accept only when no
such child exists. -/
def validateTaskCompleted (s : HearthState) (taskID : String) : Bool :=
  let hasIncompleteChildren :=
    List.any (mapValues s.Tasks)
      (fun t => t.ParentID = some taskID && t.Status ≠ "completed")
  ! hasIncompleteChildren

/-- The reducer dispatch registered in NewHearth: one reducer per event kind;
kinds with no registered reducer leave the state unchanged
(reduceTaskExecuted returns the state as is). -/
def applyReducer (s : HearthState) : Event → HearthState
  | .taskCreated id title descr par dep t => reduceTaskCreated s id title descr par dep t
  | .taskStarted id _ => reduceTaskStarted s id
  | .taskCompleted id t => reduceTaskCompleted s id t
  | .nextTaskSelected id _ _ => reduceNextTaskSelected s id
  | .taskExecuted _ _ _ => s
  | .executeTasksRequested _ => s
  | .summaryRequested _ _ => s
  | .summaryGenerated _ _ _ => s

/-- Replay: fold the reducers over an event sequence from the empty state,
as specified for the event log contract. -/
def replay (events : List Event) : HearthState :=
  List.foldl applyReducer emptyState events

/-! ## Engine and Process (hearth.go; engine contract per the specification) -/

/-- The only validator registered in NewHearth guards task_completed; every
other event kind is accepted. -/
def validateEvent (s : HearthState) : Event → Bool
  | .taskCompleted id _ => validateTaskCompleted s id
  | _ => true

/-- The engine pair: projected state plus the append-only event log.
Modelled from the spec: the atmos engine is an external dependency; the
specification reduces it to the contract that a validated event is appended
to the log and folded into the state by the registered reducer, while a
rejected event is not appended and changes nothing. -/
structure Engine where
  state : HearthState
  log : List Event
deriving DecidableEq, Repr

/-- ErrEventRejected of hearth.go. -/
def ErrEventRejected : String := "event was rejected by validators"

/-- engine.Emit per the specification contract: gate the event through the
validators; on success append it to the log and apply the reducer. -/
def emit (en : Engine) (e : Event) : Bool × Engine :=
  if validateEvent en.state e then
    (true, { state := applyReducer en.state e, log := en.log ++ [e] })
  else
    (false, en)

/-- Hearth.Process of hearth.go: emit the event; when the engine reports
failure, surface ErrEventRejected, otherwise no error.  The returned engine
is the (possibly unchanged) receiver. -/
def Process (en : Engine) (e : Event) : Engine × Option String :=
  match emit en e with
  | (true, en1) => (en1, none)
  | (false, en1) => (en1, some ErrEventRejected)

/-! ## Scheduler (hearth.go: findNextTask, findNextInSubtree) -/

/-- One ordered-insert step of sorting by CreatedAt ascending. -/
def insertByCreated (t : Task) : List Task → List Task
  | [] => [t]
  | x :: xs =>
    if t.CreatedAt ≤ x.CreatedAt then t :: x :: xs else x :: insertByCreated t xs

/-- The `sort.Slice(..., CreatedAt.Before)` calls of findNextTask and
findNextInSubtree: sort a task list by CreatedAt ascending.  Go leaves the
order of CreatedAt ties unspecified (unstable sort over an unspecified map
iteration order); this embedding is one deterministic refinement. -/
def sortByCreated : List Task → List Task
  | [] => []
  | x :: xs => insertByCreated x (sortByCreated xs)

/-- The `taskMap[id]` lookups of the scheduler.  The source builds a map
keyed by ID from the task slice; for the ID-unique slices the engine
produces this equals a direct scan of the slice. -/
def lookupById (tasks : List Task) (id : String) : Option Task :=
  List.find? (fun t => t.ID = id) tasks

/-- The child-gathering loop of findNextInSubtree: all tasks whose ParentID
equals the given ID, sorted by CreatedAt ascending. -/
def childrenOf (tasks : List Task) (parentID : String) : List Task :=
  sortByCreated (List.filter (fun t => t.ParentID = some parentID) tasks)

/-- The leaf eligibility test of findNextInSubtree: the leaf must be todo,
and when DependsOn is set the referenced task must exist and be completed. -/
def eligibleLeaf (tasks : List Task) (t : Task) : Bool :=
  if t.Status ≠ "todo" then false
  else
    match t.DependsOn with
    | none => true
    | some d =>
      match lookupById tasks d with
      | none => false
      | some dep => dep.Status = "completed"

/-- findNextInSubtree of hearth.go, with explicit fuel for the recursion
into children.  The Go recursion depth is bounded by the number of tasks on
any parent forest, so fuel `tasks.length + 1` reproduces the source. -/
def findNextInSubtreeF : Nat → Task → List Task → Option Task
  | 0, _, _ => none
  | fuel + 1, parent, tasks =>
    let children := childrenOf tasks parent.ID
    if children.isEmpty then
      if eligibleLeaf tasks parent then some parent else none
    else
      List.findSome? (fun c => findNextInSubtreeF fuel c tasks) children

/-- The root-gathering step of findNextTask: tasks with no parent, sorted by
CreatedAt ascending. -/
def rootsOf (tasks : List Task) : List Task :=
  sortByCreated (List.filter (fun t => t.ParentID = none) tasks)

/-- findNextTask of hearth.go: depth-first over each root in creation order,
returning the first task some subtree yields. -/
def findNextTask (tasks : List Task) : Option Task :=
  List.findSome? (fun r => findNextInSubtreeF (tasks.length + 1) r tasks)
    (rootsOf tasks)

/-- The leaf frontier of a subtree in depth-first order: the sequence of
leaves findNextInSubtree visits, with the same fuel discipline.  This is a
specification-side definition used to state that the scheduler returns the
first eligible leaf of the depth-first traversal. -/
def dfsLeavesF : Nat → Task → List Task → List Task
  | 0, _, _ => []
  | fuel + 1, parent, tasks =>
    let children := childrenOf tasks parent.ID
    if children.isEmpty then [parent]
    else children.flatMap (fun c => dfsLeavesF fuel c tasks)

/-- The leaf frontier of the whole forest in depth-first order, roots in
creation order. -/
def dfsForestLeaves (tasks : List Task) : List Task :=
  (rootsOf tasks).flatMap (fun r => dfsLeavesF (tasks.length + 1) r tasks)

/-! ## Orchestration listener (orchestration.go: onTaskExecuted) -/

/-- onTaskExecuted of orchestration.go, as the list of events the listener
emits: nothing when the executed task is unknown; NextTaskSelected (with
empty TaskID and Reason, to be filled by its before hook) when the task has
children; TaskCompleted for the task otherwise. -/
def onTaskExecuted (s : HearthState) (taskID : String) (now : Nat) :
    List Event :=
  match mapLookup s.Tasks taskID with
  | none => []
  | some _ =>
    let hasChildren :=
      List.any (mapValues s.Tasks) (fun t => t.ParentID = some taskID)
    if hasChildren then [Event.nextTaskSelected "" "" now]
    else [Event.taskCompleted taskID now]

/-! ## Load and read paths (file repository GetAll; persistence.go) -/

/-- FileRepository.GetAll: the locked read of the events file, abstracted
over the outcome of readEvents (an unmarshal or I/O failure, or the event
list).  On any error the source returns the empty slice and no error. -/
def fileRepositoryGetAll (readResult : Except String (List Event)) :
    List Event :=
  match readResult with
  | .error _ => []
  | .ok events => events

/-- NewHearthWithPersistence of persistence.go, abstracted over whether the
events file exists and over the outcome of UnmarshalEvents on its bytes:
the events the new instance is pre-loaded with, or the load error. -/
def newHearthWithPersistence (fileExists : Bool)
    (unmarshalResult : Except String (List Event)) :
    Except String (List Event) :=
  if fileExists then
    match unmarshalResult with
    | .error msg => .error ("failed to unmarshal events: " ++ msg)
    | .ok events => .ok events
  else
    .ok []

/-! ## Event merge (persistence.go) -/

/-- The composite deduplication key of mergeEvents: the Go format string
`%s-%d` over the event kind and its UnixNano timestamp. -/
def eventKey (e : Event) : String :=
  Event.kind e ++ "-" ++ toString (Event.time e)

/-- mergeEvents of persistence.go: start from the events already on disk and
append each locally known event whose key is not present on disk.  The map
of existing keys is built once and not extended while appending. -/
def mergeEvents (existing current : List Event) : List Event :=
  existing ++
    List.filter
      (fun e => ! List.any existing (fun x => eventKey x = eventKey e)) current

/-! ## Concrete sample data (in the style of the repository tests) -/

/-- A concrete task for witness scenarios, in the style the tests build
tasks through TaskCreated events. -/
def mkTask (id : String) (par dep : Option String) (status : String)
    (created : Nat) : Task :=
  { ID := id, Title := "", Description := "", ParentID := par,
    DependsOn := dep, Status := status, CreatedAt := created,
    CompletedAt := none }

/-- A parent with one completed child, for the cascade witnesses. -/
def sampleParentState : HearthState :=
  { Tasks := [("P", { mkTask "P" none none "completed" 0 with CompletedAt := some 3 }),
              ("C", { mkTask "C" (some "P") none "completed" 1 with CompletedAt := some 2 })] }

/-- A parent with one still-open child, for the rejection witnesses. -/
def sampleOpenState : HearthState :=
  { Tasks := [("P", mkTask "P" none none "todo" 0),
              ("C", mkTask "C" (some "P") none "todo" 1)] }

/-- The depth-first example of the specification: root R with children A
(created first) and B (created second), A with grandchildren GA1 and GA2. -/
def exampleForest : List Task :=
  [mkTask "R" none none "todo" 0,
   mkTask "A" (some "R") none "todo" 1,
   mkTask "B" (some "R") none "todo" 2,
   mkTask "GA1" (some "A") none "todo" 3,
   mkTask "GA2" (some "A") none "todo" 4]

/-- The dependency example of the tests: T1 completed, T2 depending on T1. -/
def exampleDeps : List Task :=
  [mkTask "T1" none none "completed" 1,
   mkTask "T2" none (some "T1") "todo" 2]

/-- A todo task whose ParentID names no task in the set. -/
def orphanTask : Task := mkTask "O" (some "ghost") none "todo" 1

/-! ## Helper lemmas about the map embedding -/

theorem mapLookup_mapUpdate_same (m : TaskMap) (id : String) (f : Task → Task) :
    mapLookup (mapUpdate m id f) id = (mapLookup m id).map f := by
  induction m with
  | nil => rfl
  | cons kv rest ih =>
    by_cases h : kv.1 = id
    · simp [mapUpdate, mapLookup, List.find?_cons, h]
    · simp only [mapUpdate, List.map_cons, if_neg h] at *
      simp only [mapLookup, List.find?_cons, h] at *
      simpa [mapUpdate, mapLookup] using ih

theorem mapLookup_mapUpdate_ne (m : TaskMap) (id j : String) (f : Task → Task)
    (h : j ≠ id) : mapLookup (mapUpdate m id f) j = mapLookup m j := by
  induction m with
  | nil => rfl
  | cons kv rest ih =>
    by_cases hk : kv.1 = id
    · have hij : ¬ (id = j) := fun hh => h hh.symm
      have hkj : ¬ (kv.1 = j) := by rw [hk]; exact hij
      simp only [mapUpdate, List.map_cons, if_pos hk]
      simp only [mapLookup, List.find?_cons, hij, hkj, decide_eq_false hij,
        decide_eq_false hkj]
      simpa [mapUpdate, mapLookup] using ih
    · simp only [mapUpdate, List.map_cons, if_neg hk]
      by_cases hj : kv.1 = j
      · simp [mapLookup, List.find?_cons, hj]
      · simp only [mapLookup, List.find?_cons, decide_eq_false hj]
        simpa [mapUpdate, mapLookup] using ih

theorem mapLookup_mapSet_same (m : TaskMap) (id : String) (t : Task) :
    mapLookup (mapSet m id t) id = some t := by
  unfold mapSet
  by_cases h : List.any m (fun kv => kv.1 = id)
  · simp only [if_pos h]
    induction m with
    | nil => simp at h
    | cons kv rest ih =>
      by_cases hk : kv.1 = id
      · simp [mapLookup, List.find?_cons, hk]
      · simp only [List.map_cons, if_neg hk]
        simp only [List.any_cons, hk, Bool.false_or] at h
        simp only [mapLookup, List.find?_cons, hk]
        simpa [mapLookup] using ih h
  · simp only [if_neg h]
    induction m with
    | nil => simp [mapLookup]
    | cons kv rest ih =>
      simp only [List.any_cons, Bool.or_eq_true, not_or] at h
      have hk : kv.1 ≠ id := by
        intro hh; exact h.1 (by simp [hh])
      simp only [List.cons_append, mapLookup, List.find?_cons, hk]
      simpa [mapLookup] using ih h.2

theorem mapUpdate_noop (m : TaskMap) (id : String) (f : Task → Task)
    (h : mapLookup m id = none) : mapUpdate m id f = m := by
  have h2 : List.find? (fun kv => kv.1 = id) m = none := by
    cases hf : List.find? (fun kv : String × Task => kv.1 = id) m with
    | none => rfl
    | some kv => rw [mapLookup, hf] at h; simp at h
  rw [List.find?_eq_none] at h2
  unfold mapUpdate
  have : ∀ kv ∈ m, (if kv.1 = id then (kv.1, f kv.2) else kv) = kv := by
    intro kv hkv
    have := h2 kv hkv
    simp at this
    simp [this]
  rw [List.map_congr_left this]
  simp

/-! ## Lemmas about the completion cascade -/

theorem cascade_preserves_completed (fuel : Nat) :
    ∀ (s : HearthState) (pid : String) (tm : Nat) (id : String) (t : Task),
      mapLookup s.Tasks id = some t → t.Status = "completed" →
      mapLookup (autoCompleteParentF fuel s pid tm).Tasks id = some t := by
  induction fuel with
  | zero => intro s pid tm id t h _; simpa [autoCompleteParentF] using h
  | succ fuel ih =>
    intro s pid tm id t h hc
    show mapLookup (autoCompleteParentF (fuel + 1) s pid tm).Tasks id = some t
    rw [autoCompleteParentF]
    by_cases hall :
        (! List.any (mapValues s.Tasks)
            (fun c => c.ParentID = some pid && c.Status ≠ "completed")) = true
    · rw [if_pos hall]
      cases hpar : mapLookup s.Tasks pid with
      | none => exact h
      | some parent =>
        dsimp only
        by_cases hstat : parent.Status = "completed"
        · rw [if_neg (by simpa using hstat)]
          exact h
        · rw [if_pos (by simpa using hstat)]
          have hne : id ≠ pid := by
            intro he
            rw [he, hpar] at h
            cases h
            exact hstat hc
          have hstep :
              mapLookup (mapUpdate s.Tasks pid (fun c =>
                { c with Status := "completed", CompletedAt := some tm })) id
                = some t := by
            rw [mapLookup_mapUpdate_ne _ _ _ _ hne]
            exact h
          cases hpp : parent.ParentID with
          | none => exact hstep
          | some gp => exact ih _ gp tm id t hstep hc
    · rw [if_neg hall]
      exact h

theorem cascade_noop_on_completed (s : HearthState) (pid : String) (tm : Nat)
    (p : Task) (hpar : mapLookup s.Tasks pid = some p)
    (hp : p.Status = "completed") : autoCompleteParent s pid tm = s := by
  rw [autoCompleteParent, autoCompleteParentF]
  by_cases hall :
      (! List.any (mapValues s.Tasks)
          (fun c => c.ParentID = some pid && c.Status ≠ "completed")) = true
  · rw [if_pos hall, hpar]
    dsimp only
    rw [if_neg (by simpa using hp)]
  · rw [if_neg hall]

/-! ## Lemmas about the scheduler -/

theorem mem_insertByCreated (t x : Task) (l : List Task) :
    x ∈ insertByCreated t l ↔ x = t ∨ x ∈ l := by
  induction l with
  | nil => simp [insertByCreated]
  | cons y ys ih =>
    rw [insertByCreated]
    by_cases hle : t.CreatedAt ≤ y.CreatedAt
    · rw [if_pos hle]
      simp [List.mem_cons]
    · rw [if_neg hle]
      simp only [List.mem_cons, ih]
      tauto

theorem insertByCreated_perm (t : Task) (l : List Task) :
    List.Perm (insertByCreated t l) (t :: l) := by
  induction l with
  | nil => exact List.Perm.refl _
  | cons y ys ih =>
    rw [insertByCreated]
    by_cases hle : t.CreatedAt ≤ y.CreatedAt
    · rw [if_pos hle]
    · rw [if_neg hle]
      exact (List.Perm.cons y ih).trans (List.Perm.swap t y ys)

theorem sortByCreated_perm (l : List Task) : List.Perm (sortByCreated l) l := by
  induction l with
  | nil => exact List.Perm.refl _
  | cons x xs ih =>
    rw [sortByCreated]
    exact (insertByCreated_perm x (sortByCreated xs)).trans (List.Perm.cons x ih)

theorem mem_sortByCreated (x : Task) (l : List Task) :
    x ∈ sortByCreated l ↔ x ∈ l :=
  (sortByCreated_perm l).mem_iff

theorem pairwise_insertByCreated (t : Task) (l : List Task)
    (h : l.Pairwise (fun a b => a.CreatedAt ≤ b.CreatedAt)) :
    (insertByCreated t l).Pairwise (fun a b => a.CreatedAt ≤ b.CreatedAt) := by
  induction l with
  | nil => simp [insertByCreated]
  | cons x xs ih =>
    rw [insertByCreated]
    by_cases hle : t.CreatedAt ≤ x.CreatedAt
    · rw [if_pos hle]
      refine List.Pairwise.cons ?_ h
      intro b hb
      rcases List.mem_cons.mp hb with rfl | hb
      · exact hle
      · exact le_trans hle (List.rel_of_pairwise_cons h hb)
    · rw [if_neg hle]
      have hx : x.CreatedAt ≤ t.CreatedAt := le_of_not_le hle
      rcases List.pairwise_cons.mp h with ⟨hxall, hxs⟩
      refine List.pairwise_cons.mpr ⟨?_, ih hxs⟩
      intro b hb
      rcases (mem_insertByCreated t b xs).mp hb with rfl | hb
      · exact hx
      · exact hxall b hb

theorem sortByCreated_pairwise (l : List Task) :
    (sortByCreated l).Pairwise (fun a b => a.CreatedAt ≤ b.CreatedAt) := by
  induction l with
  | nil => simp [sortByCreated]
  | cons x xs ih =>
    rw [sortByCreated]
    exact pairwise_insertByCreated x _ ih

theorem mem_childrenOf (tasks : List Task) (pid : String) (c : Task) :
    c ∈ childrenOf tasks pid ↔ c ∈ tasks ∧ c.ParentID = some pid := by
  unfold childrenOf
  rw [mem_sortByCreated, List.mem_filter]
  simp

theorem mem_rootsOf (tasks : List Task) (r : Task) :
    r ∈ rootsOf tasks ↔ r ∈ tasks ∧ r.ParentID = none := by
  unfold rootsOf
  rw [mem_sortByCreated, List.mem_filter]
  simp

theorem find?_flatMap {α β : Type} (l : List α) (g : α → List β) (p : β → Bool) :
    (l.flatMap g).find? p = l.findSome? (fun c => (g c).find? p) := by
  induction l with
  | nil => rfl
  | cons x xs ih =>
    rw [List.flatMap_cons, List.find?_append, List.findSome?_cons]
    cases hx : (g x).find? p with
    | some b => simp [hx]
    | none => simp [hx, ih]

theorem findNextInSubtreeF_eq_find (fuel : Nat) (tasks : List Task) :
    ∀ parent, findNextInSubtreeF fuel parent tasks
      = (dfsLeavesF fuel parent tasks).find? (eligibleLeaf tasks) := by
  induction fuel with
  | zero => intro parent; rfl
  | succ fuel ih =>
    intro parent
    rw [findNextInSubtreeF, dfsLeavesF]
    by_cases hc : (childrenOf tasks parent.ID).isEmpty
    · rw [if_pos hc, if_pos hc]
      cases he : eligibleLeaf tasks parent with
      | true => simp [List.find?, he]
      | false => simp [List.find?, he]
    · rw [if_neg hc, if_neg hc, find?_flatMap]
      simp only [ih]

theorem findNextTask_eq_find (tasks : List Task) :
    findNextTask tasks = (dfsForestLeaves tasks).find? (eligibleLeaf tasks) := by
  unfold findNextTask dfsForestLeaves
  rw [find?_flatMap]
  simp only [findNextInSubtreeF_eq_find]

theorem childless_of_mem_dfsLeavesF (fuel : Nat) (tasks : List Task) :
    ∀ parent x, x ∈ dfsLeavesF fuel parent tasks →
      childrenOf tasks x.ID = [] := by
  induction fuel with
  | zero => intro parent x hx; simp [dfsLeavesF] at hx
  | succ fuel ih =>
    intro parent x hx
    rw [dfsLeavesF] at hx
    by_cases hc : (childrenOf tasks parent.ID).isEmpty
    · rw [if_pos hc] at hx
      rcases List.mem_singleton.mp hx with rfl
      exact List.isEmpty_iff.mp hc
    · rw [if_neg hc] at hx
      rcases List.mem_flatMap.mp hx with ⟨c, _, hxc⟩
      exact ih c x hxc

theorem parent_of_mem_dfsLeavesF (fuel : Nat) (tasks : List Task) :
    ∀ parent x, parent ∈ tasks → x ∈ dfsLeavesF fuel parent tasks →
      x = parent ∨ ∃ q ∈ tasks, x.ParentID = some q.ID := by
  induction fuel with
  | zero => intro parent x _ hx; simp [dfsLeavesF] at hx
  | succ fuel ih =>
    intro parent x hpmem hx
    rw [dfsLeavesF] at hx
    by_cases hc : (childrenOf tasks parent.ID).isEmpty
    · rw [if_pos hc] at hx
      exact Or.inl (List.mem_singleton.mp hx)
    · rw [if_neg hc] at hx
      rcases List.mem_flatMap.mp hx with ⟨c, hcmem, hxc⟩
      rcases (mem_childrenOf tasks parent.ID c).mp hcmem with ⟨hcts, hcpar⟩
      rcases ih c x hcts hxc with rfl | hq
      · exact Or.inr ⟨parent, hpmem, hcpar⟩
      · exact Or.inr hq

theorem mem_dfsForestLeaves (tasks : List Task) (x : Task)
    (hx : x ∈ dfsForestLeaves tasks) :
    x.ParentID = none ∨ ∃ q ∈ tasks, x.ParentID = some q.ID := by
  rcases List.mem_flatMap.mp hx with ⟨r, hr, hxr⟩
  rcases (mem_rootsOf tasks r).mp hr with ⟨hrts, hrpar⟩
  rcases parent_of_mem_dfsLeavesF _ tasks r x hrts hxr with rfl | hq
  · exact Or.inl hrpar
  · exact Or.inr hq

theorem eligibleLeaf_eq_true_iff (tasks : List Task) (t : Task) :
    eligibleLeaf tasks t = true ↔
      t.Status = "todo" ∧
      (t.DependsOn = none ∨
        ∃ d dep, t.DependsOn = some d ∧ lookupById tasks d = some dep ∧
          dep.Status = "completed") := by
  unfold eligibleLeaf
  by_cases hst : t.Status ≠ "todo"
  · rw [if_pos hst]
    simp [hst]
  · rw [if_neg hst]
    have hst2 : t.Status = "todo" := not_not.mp hst
    cases hDep : t.DependsOn with
    | none => simp [hst2]
    | some d =>
      cases hdep : lookupById tasks d with
      | none => simp [hst2, hdep]
      | some dep => simp [hst2, hdep]

theorem eligible_of_findNextTask_some (tasks : List Task) (t : Task)
    (h : findNextTask tasks = some t) :
    t ∈ dfsForestLeaves tasks ∧ eligibleLeaf tasks t = true := by
  rw [findNextTask_eq_find] at h
  exact ⟨List.mem_of_find?_eq_some h, List.find?_some h⟩

/-! ## Validator lemma -/

theorem validator_rejects_open_child (s : HearthState) (P : String) (C : Task)
    (hC : C ∈ mapValues s.Tasks) (hp : C.ParentID = some P)
    (hs : C.Status ≠ "completed") : validateTaskCompleted s P = false := by
  unfold validateTaskCompleted
  have hany : List.any (mapValues s.Tasks)
      (fun t => t.ParentID = some P && t.Status ≠ "completed") = true := by
    rw [List.any_eq_true]
    refine ⟨C, hC, ?_⟩
    simp [hp, hs]
  rw [hany]
  rfl

/-! ## Claim theorems -/

/-- C1: in any state holding a task C whose ParentID is P and whose Status
is not completed, Process of TaskCompleted for P returns the distinguished
rejection error ErrEventRejected, the event is not appended to the log, and
the projected state — in particular the Status of P — is unchanged. -/
theorem claim_C1 (en : Engine) (P : String) (C : Task) (tm : Nat)
    (hC : C ∈ mapValues en.state.Tasks) (hp : C.ParentID = some P)
    (hs : C.Status ≠ "completed") :
    Process en (Event.taskCompleted P tm) = (en, some ErrEventRejected) ∧
    (Process en (Event.taskCompleted P tm)).1.log = en.log ∧
    mapLookup (Process en (Event.taskCompleted P tm)).1.state.Tasks P
      = mapLookup en.state.Tasks P := by
  have hv : validateEvent en.state (Event.taskCompleted P tm) = false :=
    validator_rejects_open_child en.state P C hC hp hs
  have hmain : Process en (Event.taskCompleted P tm) = (en, some ErrEventRejected) := by
    unfold Process emit
    rw [hv]
    simp
  exact ⟨hmain, by rw [hmain], by rw [hmain]⟩

/-- Witness for C1 on a concrete parent with an open child. -/
theorem claim_C1_witness :
    Process { state := sampleOpenState, log := [] } (Event.taskCompleted "P" 5)
      = ({ state := sampleOpenState, log := [] }, some ErrEventRejected) :=
  (claim_C1 { state := sampleOpenState, log := [] } "P"
    (mkTask "C" (some "P") none "todo" 1) 5 (by decide) (by decide) (by decide)).1

/-- C2: a leaf task with a DependsOn reference is never returned by the
scheduler while the referenced task is not completed (whenever findNextTask
returns a task with a dependency, the dependency exists and is completed),
and a todo leaf whose dependency is completed is eligible: the subtree
search at that leaf returns it. -/
theorem claim_C2 :
    (∀ (tasks : List Task) (t : Task) (d : String),
       findNextTask tasks = some t → t.DependsOn = some d →
       ∃ dep, lookupById tasks d = some dep ∧ dep.Status = "completed") ∧
    (∀ (tasks : List Task) (t : Task) (d : String) (dep : Task) (fuel : Nat),
       childrenOf tasks t.ID = [] → t.Status = "todo" → t.DependsOn = some d →
       lookupById tasks d = some dep → dep.Status = "completed" →
       findNextInSubtreeF (fuel + 1) t tasks = some t) := by
  constructor
  · intro tasks t d h hd
    have hel := (eligible_of_findNextTask_some tasks t h).2
    rw [eligibleLeaf_eq_true_iff] at hel
    rcases hel.2 with hnone | ⟨d1, dep, hd1, hdep, hdst⟩
    · rw [hd] at hnone
      cases hnone
    · rw [hd] at hd1
      cases Option.some.inj hd1
      exact ⟨dep, hdep, hdst⟩
  · intro tasks t d dep fuel hch hst hd hdep hdepst
    rw [findNextInSubtreeF]
    have hempty : (childrenOf tasks t.ID).isEmpty = true := by rw [hch]; rfl
    rw [if_pos hempty]
    have hel : eligibleLeaf tasks t = true := by
      rw [eligibleLeaf_eq_true_iff]
      exact ⟨hst, Or.inr ⟨d, dep, hd, hdep, hdepst⟩⟩
    rw [if_pos hel]

/-- Witness for C2: with T1 completed, T2 (which depends on T1) has its
dependency completed, and T2 is eligible at its leaf. -/
theorem claim_C2_witness :
    (∃ dep, lookupById exampleDeps "T1" = some dep ∧ dep.Status = "completed") ∧
    findNextInSubtreeF 1 (mkTask "T2" none (some "T1") "todo" 2) exampleDeps
      = some (mkTask "T2" none (some "T1") "todo" 2) :=
  ⟨claim_C2.1 exampleDeps (mkTask "T2" none (some "T1") "todo" 2) "T1"
      (by decide) rfl,
   claim_C2.2 exampleDeps (mkTask "T2" none (some "T1") "todo" 2) "T1"
      (mkTask "T1" none none "completed" 1) 0 (by decide) rfl rfl (by decide) rfl⟩

/-- C3: findNextTask is the first eligible leaf of the depth-first leaf
frontier (roots and children visited in CreatedAt-ascending order, as the
permutation and pairwise conjuncts state); a task with a child is never
returned; and when no leaf of the frontier is eligible the result is none. -/
theorem claim_C3 (tasks : List Task) :
    findNextTask tasks = (dfsForestLeaves tasks).find? (eligibleLeaf tasks) ∧
    (∀ t, findNextTask tasks = some t → childrenOf tasks t.ID = []) ∧
    ((∀ x ∈ dfsForestLeaves tasks, eligibleLeaf tasks x = false) →
       findNextTask tasks = none) ∧
    List.Perm (rootsOf tasks) (tasks.filter (fun t => t.ParentID = none)) ∧
    (rootsOf tasks).Pairwise (fun a b => a.CreatedAt ≤ b.CreatedAt) ∧
    (∀ pid, List.Perm (childrenOf tasks pid)
        (tasks.filter (fun t => t.ParentID = some pid))) ∧
    (∀ pid, (childrenOf tasks pid).Pairwise
        (fun a b => a.CreatedAt ≤ b.CreatedAt)) := by
  refine ⟨findNextTask_eq_find tasks, ?_, ?_, sortByCreated_perm _,
    sortByCreated_pairwise _, fun pid => sortByCreated_perm _,
    fun pid => sortByCreated_pairwise _⟩
  · intro t h
    have hmem := (eligible_of_findNextTask_some tasks t h).1
    rcases List.mem_flatMap.mp hmem with ⟨r, _, hxr⟩
    exact childless_of_mem_dfsLeavesF _ tasks r t hxr
  · intro hall
    rw [findNextTask_eq_find, List.find?_eq_none]
    intro x hx
    simp [hall x hx]

/-- Witness for C3: in the specification example, the scheduler returns the
grandchild GA1, and GA1 has no children. -/
theorem claim_C3_witness :
    childrenOf exampleForest (mkTask "GA1" (some "A") none "todo" 3).ID = [] :=
  (claim_C3 exampleForest).2.1 (mkTask "GA1" (some "A") none "todo" 3) (by decide)

/-- C10: the traversal starts only from tasks whose ParentID is none, and a
task whose ParentID names an ID absent from the task set is never returned
by findNextTask, whatever its Status or dependency. -/
theorem claim_C10 (tasks : List Task) (x : Task) (pid : String)
    (hx : x.ParentID = some pid) (habs : lookupById tasks pid = none) :
    (∀ r ∈ rootsOf tasks, r.ParentID = none) ∧
    findNextTask tasks ≠ some x := by
  constructor
  · intro r hr
    exact ((mem_rootsOf tasks r).mp hr).2
  · intro h
    have hmem := (eligible_of_findNextTask_some tasks x h).1
    rcases mem_dfsForestLeaves tasks x hmem with hnone | ⟨q, hq, hqid⟩
    · rw [hx] at hnone
      cases hnone
    · rw [hx] at hqid
      have hpq : pid = q.ID := Option.some.inj hqid
      unfold lookupById at habs
      rw [List.find?_eq_none] at habs
      exact habs q hq (by simp [hpq])

/-- Witness for C10: the concrete orphan is not returned. -/
theorem claim_C10_witness : findNextTask [orphanTask] ≠ some orphanTask :=
  (claim_C10 [orphanTask] orphanTask "ghost" rfl (by decide)).2

/-- C4 counterexample: replaying TaskCreated, TaskCompleted, TaskStarted for
the same task from the empty state leaves the task in-progress after it was
completed — Status regresses, because the TaskStarted reducer checks only
that the task exists, not that it is todo. -/
theorem claim_C4_counterexample :
    (mapLookup (replay [Event.taskCreated "T" "t" "d" none none 0,
        Event.taskCompleted "T" 1]).Tasks "T").map Task.Status
      = some "completed" ∧
    (mapLookup (replay [Event.taskCreated "T" "t" "d" none none 0,
        Event.taskCompleted "T" 1, Event.taskStarted "T" 2]).Tasks "T").map Task.Status
      = some "in-progress" := by
  constructor <;> rfl

/-- C4 amended: the TaskStarted reducer sets Status to in-progress whenever
the task exists, regardless of its current Status (so Status is not monotone
under arbitrary replayed sequences), and leaves the state unchanged when the
task does not exist. -/
theorem claim_C4_amended (s : HearthState) (id : String) :
    (∀ t, mapLookup s.Tasks id = some t →
       mapLookup (reduceTaskStarted s id).Tasks id
         = some { t with Status := "in-progress" }) ∧
    (mapLookup s.Tasks id = none → reduceTaskStarted s id = s) := by
  constructor
  · intro t h
    unfold reduceTaskStarted
    rw [mapLookup_mapUpdate_same, h]
    rfl
  · intro h
    unfold reduceTaskStarted
    rw [mapUpdate_noop _ _ _ h]

/-- Witness for the amended C4 on a concrete completed task. -/
theorem claim_C4_witness :
    mapLookup (reduceTaskStarted
        { Tasks := [("T", mkTask "T" none none "completed" 0)] } "T").Tasks "T"
      = some (mkTask "T" none none "in-progress" 0) :=
  (claim_C4_amended { Tasks := [("T", mkTask "T" none none "completed" 0)] } "T").1
    (mkTask "T" none none "completed" 0) (by decide)

/-- C5 counterexample: a second TaskCompleted for the same task overwrites
CompletedAt — after replaying a duplicate completion at time 7 the stored
CompletedAt is 7, not the original 1. -/
theorem claim_C5_counterexample :
    (mapLookup (replay [Event.taskCreated "T" "t" "d" none none 0,
        Event.taskCompleted "T" 1]).Tasks "T").map Task.CompletedAt
      = some (some 1) ∧
    (mapLookup (replay [Event.taskCreated "T" "t" "d" none none 0,
        Event.taskCompleted "T" 1, Event.taskCompleted "T" 7]).Tasks "T").map Task.CompletedAt
      = some (some 7) := by
  constructor <;> rfl

/-- C5 amended: every TaskCompleted event naming an existing task assigns
that task Status completed and CompletedAt equal to the event time — also
when the task was already completed, so a duplicate completion reassigns
CompletedAt; the cascade path alone assigns it at most once, because
autoCompleteParent leaves an already-completed parent unchanged. -/
theorem claim_C5_amended :
    (∀ (s : HearthState) (id : String) (tm : Nat) (t : Task),
       mapLookup s.Tasks id = some t →
       mapLookup (reduceTaskCompleted s id tm).Tasks id
         = some { t with Status := "completed", CompletedAt := some tm }) ∧
    (∀ (s : HearthState) (pid : String) (tm : Nat) (p : Task),
       mapLookup s.Tasks pid = some p → p.Status = "completed" →
       autoCompleteParent s pid tm = s) := by
  constructor
  · intro s id tm t h
    unfold reduceTaskCompleted
    rw [h]
    dsimp only
    have hstep :
        mapLookup (mapUpdate s.Tasks id (fun c =>
            { c with Status := "completed", CompletedAt := some tm })) id
          = some { t with Status := "completed", CompletedAt := some tm } := by
      rw [mapLookup_mapUpdate_same, h]
      rfl
    cases hpp : t.ParentID with
    | none =>
      rw [hpp] at hstep
      exact hstep
    | some pid =>
      rw [hpp] at hstep
      exact cascade_preserves_completed _ _ pid tm id _ hstep rfl
  · intro s pid tm p h hp
    exact cascade_noop_on_completed s pid tm p h hp

/-- Witness for the amended C5: a duplicate completion at time 9 reassigns
CompletedAt, and the cascade is a no-op on an already completed parent. -/
theorem claim_C5_witness :
    mapLookup (reduceTaskCompleted sampleParentState "C" 9).Tasks "C"
      = some { mkTask "C" (some "P") none "completed" 1 with CompletedAt := some 9 } ∧
    autoCompleteParent sampleParentState "P" 9 = sampleParentState :=
  ⟨claim_C5_amended.1 sampleParentState "C" 9
      { mkTask "C" (some "P") none "completed" 1 with CompletedAt := some 2 } (by decide),
   claim_C5_amended.2 sampleParentState "P" 9
      { mkTask "P" none none "completed" 0 with CompletedAt := some 3 } (by decide) rfl⟩

/-- C6 counterexample: applying the TaskCreated reducer for an already
present TaskID is not a no-op — a completed task is replaced by a fresh todo
task built from the event. -/
theorem claim_C6_counterexample :
    (mapLookup (reduceTaskCreated
        { Tasks := [("X", { mkTask "X" none none "completed" 0 with CompletedAt := some 5 })] }
        "X" "other" "" none none 9).Tasks "X").map Task.Status = some "todo" ∧
    (mapLookup (reduceTaskCreated
        { Tasks := [("X", { mkTask "X" none none "completed" 0 with CompletedAt := some 5 })] }
        "X" "other" "" none none 9).Tasks "X").map Task.CreatedAt = some 9 := by
  constructor <;> rfl

/-- C6 amended: applying the TaskCreated reducer to an event whose TaskID is
already present replaces the stored task wholesale with a fresh task built
from the event (Status todo, CreatedAt the event time, CompletedAt nil);
the previously stored fields are discarded, not preserved. -/
theorem claim_C6_amended :
    ∀ (s : HearthState) (taskID title description : String)
      (parentID dependsOn : Option String) (time : Nat),
      mapLookup (reduceTaskCreated s taskID title description
          parentID dependsOn time).Tasks taskID
        = some { ID := taskID, Title := title, Description := description,
                 ParentID := parentID, DependsOn := dependsOn, Status := "todo",
                 CreatedAt := time, CompletedAt := none } :=
  fun s taskID _ _ _ _ _ => mapLookup_mapSet_same s.Tasks taskID _

/-- C7: for a TaskExecuted event naming a task present in state, the
orchestration listener emits NextTaskSelected (and no TaskCompleted) when
the task has a child, and emits TaskCompleted for the task when it has no
children. -/
theorem claim_C7 (s : HearthState) (taskID : String) (now : Nat) (t : Task)
    (h : mapLookup s.Tasks taskID = some t) :
    (List.any (mapValues s.Tasks) (fun c => c.ParentID = some taskID) = true →
       onTaskExecuted s taskID now = [Event.nextTaskSelected "" "" now]) ∧
    (List.any (mapValues s.Tasks) (fun c => c.ParentID = some taskID) = false →
       onTaskExecuted s taskID now = [Event.taskCompleted taskID now]) := by
  unfold onTaskExecuted
  rw [h]
  constructor <;> intro hh <;> simp [hh]

/-- Witness for C7: concrete parent with a child gets a NextTaskSelected,
the childless child gets a TaskCompleted. -/
theorem claim_C7_witness :
    onTaskExecuted sampleOpenState "P" 7 = [Event.nextTaskSelected "" "" 7] ∧
    onTaskExecuted sampleOpenState "C" 7 = [Event.taskCompleted "C" 7] :=
  ⟨(claim_C7 sampleOpenState "P" 7 (mkTask "P" none none "todo" 0)
      (by decide)).1 (by decide),
   (claim_C7 sampleOpenState "C" 7 (mkTask "C" (some "P") none "todo" 1)
      (by decide)).2 (by decide)⟩

/-- C8: mergeEvents deduplicates on the composite (kind, timestamp) key:
merging a list against itself is the identity; the keys of a merge are
exactly the union of the keys of the two inputs; and a self-merge
introduces no duplicate keys. -/
theorem claim_C8 :
    (∀ E : List Event, mergeEvents E E = E) ∧
    (∀ (a b : List Event) (k : String),
       k ∈ (mergeEvents a b).map eventKey ↔
         k ∈ a.map eventKey ∨ k ∈ b.map eventKey) ∧
    (∀ E : List Event, (E.map eventKey).Nodup →
       ((mergeEvents E E).map eventKey).Nodup) := by
  have hself : ∀ E : List Event, mergeEvents E E = E := by
    intro E
    unfold mergeEvents
    have hfil : List.filter
        (fun e => ! List.any E (fun x => eventKey x = eventKey e)) E = [] := by
      rw [List.filter_eq_nil_iff]
      intro e he
      simp only [Bool.not_eq_true, Bool.not_eq_true']
      intro hfalse
      rw [List.any_eq_false] at hfalse
      exact hfalse e he (by simp)
    rw [hfil, List.append_nil]
  refine ⟨hself, ?_, ?_⟩
  · intro a b k
    unfold mergeEvents
    rw [List.map_append, List.mem_append]
    constructor
    · rintro (h | h)
      · exact Or.inl h
      · rcases List.mem_map.mp h with ⟨e, he, rfl⟩
        exact Or.inr (List.mem_map.mpr ⟨e, (List.mem_filter.mp he).1, rfl⟩)
    · rintro (h | h)
      · exact Or.inl h
      · by_cases ha : k ∈ a.map eventKey
        · exact Or.inl ha
        · rcases List.mem_map.mp h with ⟨e, he, rfl⟩
          refine Or.inr (List.mem_map.mpr ⟨e, List.mem_filter.mpr ⟨he, ?_⟩, rfl⟩)
          simp only [Bool.not_eq_true', List.any_eq_false]
          intro x hx hk
          exact ha (List.mem_map.mpr ⟨x, hx, by simpa using hk⟩)
  · intro E hE
    rw [hself E]
    exact hE

/-- Witness for C8 at a concrete two-event log. -/
theorem claim_C8_witness :
    mergeEvents [Event.taskCreated "T" "" "" none none 0, Event.taskCompleted "T" 1]
        [Event.taskCreated "T" "" "" none none 0, Event.taskCompleted "T" 1]
      = [Event.taskCreated "T" "" "" none none 0, Event.taskCompleted "T" 1] ∧
    ((mergeEvents [Event.taskCreated "T" "" "" none none 0, Event.taskCompleted "T" 1]
        [Event.taskCreated "T" "" "" none none 0,
          Event.taskCompleted "T" 1]).map eventKey).Nodup :=
  ⟨claim_C8.1 _, claim_C8.2.2 _ (by decide)⟩

/-- C9 counterexample: the GetAll read path of the file repository returns
the empty event list, and no error, when reading or unmarshalling the
on-disk data fails — the failure is silently swallowed and an empty state
is built in place of the error. -/
theorem claim_C9_counterexample :
    fileRepositoryGetAll (Except.error "failed to unmarshal events: unexpected end of JSON input")
      = ([] : List Event) := rfl

/-- C9 amended: the NewHearthWithPersistence load path does surface
unmarshal failures before any state is constructed, but the GetAll read
path of the file repository swallows every read or unmarshal failure and
returns an empty event list in its place. -/
theorem claim_C9_amended :
    (∀ msg : String, fileRepositoryGetAll (Except.error msg) = []) ∧
    (∀ evs : List Event, fileRepositoryGetAll (Except.ok evs) = evs) ∧
    (∀ msg : String, newHearthWithPersistence true (Except.error msg)
        = Except.error ("failed to unmarshal events: " ++ msg)) ∧
    (∀ evs : List Event, newHearthWithPersistence true (Except.ok evs)
        = Except.ok evs) ∧
    (∀ u : Except String (List Event), newHearthWithPersistence false u
        = Except.ok []) :=
  ⟨fun _ => rfl, fun _ => rfl, fun _ => rfl, fun _ => rfl, fun _ => rfl⟩

end Hearth
